import Mathlib

/-!
Shallow embedding of the `split_nodes` node-allocation tool
(`nemo/lightning/run/scripts/split_nodes/`): the hostlist expander and
switch-distance metric (`node_allocation/parsers.py`), the switch grouper,
and the two partitioning strategies (`node_allocation/strategies.py`).

Modelling conventions:
* Python `dict` values become association lists (`List (key × value)`)
  iterated in insertion order, with distinct keys when they arise from a
  Python dict; `dict.get`/`[]` becomes `alookup`.
* Python `sorted` on strings becomes `List.insertionSort (· ≤ ·)` over
  `String`'s linear order (a stable sort, like Python's).
* Python `set` values are kept as lists and used only through membership
  tests; an iteration over a set that is immediately passed to `sorted`
  is modelled by sorting a duplicate-free list with the same members
  (`sortedSetDiff`), with an explicit `pick` parameter standing for the
  set's unspecified enumeration order.
* A Python exception escaping a function (`ValueError`, `IndexError`)
  is modelled by `Option`: `none` means the call raises.
* Python slices with a possibly negative bound (`l[:k]`) become `pyTake`.
* The float expression `round(num_nodes * ratio)` in the `even` strategy
  is modelled by exact rational arithmetic with Python's banker's
  rounding (`roundHalfEvenNat`); no claim below depends on the rounded
  value, only on it being clamped afterwards.
-/

namespace SplitNodes

abbrev Node := String
abbrev Switch := String

/-- Association-list lookup, the model of Python `dict.get` /
`dict[...]` for insertion-ordered dicts. -/
def alookup {β : Type} (k : String) : List (String × β) → Option β
  | [] => none
  | (k', v) :: rest => if k' = k then some v else alookup k rest

/-- Concatenation of all values of a switch→nodes mapping in insertion
order: the model of iterating `switch_to_nodes.values()` and extending a
list, as both strategies do to form `all_nodes`. -/
def concatVals (stn : List (Switch × List Node)) : List Node :=
  stn.foldl (fun acc p => acc ++ p.2) []

/-- Lexicographic order on strings by character lists: exactly how
Python compares strings (and equivalent to `String`'s linear order,
stated on `.data` so that it evaluates inside the kernel). -/
def strLe (a b : String) : Prop :=
  a.data ≤ b.data

instance : DecidableRel strLe := fun a b => inferInstanceAs (Decidable (a.data ≤ b.data))

instance : IsTotal String strLe := ⟨fun a b => le_total a.data b.data⟩

instance : IsTrans String strLe := ⟨fun _ _ _ h1 h2 => le_trans h1 h2⟩

instance : IsAntisymm String strLe :=
  ⟨fun a b h1 h2 => by
    cases a
    cases b
    simp only [strLe] at h1 h2
    exact congrArg String.mk (le_antisymm h1 h2)⟩

/-- Python `sorted` on a list of node names: a stable sort by
lexicographic order, modelled by insertion sort. -/
def sortNodes (l : List Node) : List Node :=
  l.insertionSort strLe

/-- The sorted node list of one switch: `sorted(switch_to_nodes[switch])`.
When the switch is absent the result is empty (the sources only call this
for present keys). -/
def groupOf (stn : List (Switch × List Node)) (sw : Switch) : List Node :=
  sortNodes ((alookup sw stn).getD [])

/-- Python slice `l[:k]` for an `int` bound `k` that may be negative:
a negative bound counts from the end of the list. -/
def pyTake {α : Type} (l : List α) (k : Int) : List α :=
  if 0 ≤ k then l.take k.toNat else l.take ((l.length : Int) + k).toNat

/-- Python 3 `round(p / q)` on an exact non-negative rational `p / q`:
round half to even (banker's rounding). -/
def roundHalfEvenNat (p q : Nat) : Nat :=
  let d := p / q
  let r := p % q
  if 2 * r < q then d
  else if q < 2 * r then d + 1
  else if d % 2 = 0 then d else d + 1

/-- Python `sorted(set(allNodes) - placedSet)`: the distinct elements of
`allNodes` that are not members of `placed`, sorted. The `pick` argument
models the unspecified enumeration order of the Python set being handed
to `sorted`; the program's behaviour corresponds to an arbitrary
permutation-preserving `pick`, and `fun l => l` is the canonical choice. -/
def sortedSetDiff (pick : List Node → List Node) (allNodes placed : List Node) : List Node :=
  sortNodes (pick ((allNodes.dedup).filter (fun n => ¬ n ∈ placed)))

/-! ### Hostlist expander (`parsers.expand_nodes`)

String splitting is modelled on character lists with structural
recursion (a fuel argument bounds the number of emitted pieces), so
that every definition evaluates inside the kernel; the semantics is
that of Python `str.split(sep)` for a non-empty separator. -/

/-- Boolean test that `pre` is a prefix of `l`. -/
def isPrefixL : List Char → List Char → Bool
  | [], _ => true
  | _ :: _, [] => false
  | c :: cs, d :: ds => c = d && isPrefixL cs ds

/-- Worker for separator splitting: `acc` holds the current piece in
reverse; on each separator occurrence the piece is emitted and the
separator skipped. `fuel` only bounds recursion depth; called with
`fuel = length + 1` it never runs out. -/
def splitOnL (sep : List Char) : Nat → List Char → List Char → List (List Char)
  | 0, acc, rest => [acc.reverse ++ rest]
  | _ + 1, acc, [] => [acc.reverse]
  | fuel + 1, acc, c :: cs =>
    if isPrefixL sep (c :: cs) then
      acc.reverse :: splitOnL sep fuel [] ((c :: cs).drop sep.length)
    else
      splitOnL sep fuel (c :: acc) cs

/-- Python `s.split(sep)` for a non-empty separator `sep`. -/
def pySplitOn (s sep : String) : List String :=
  if sep.data.isEmpty then [s]
  else (splitOnL sep.data (s.data.length + 1) [] s.data).map String.mk

/-- Python `c in s` for a character `c`. -/
def containsChar (s : String) (c : Char) : Bool :=
  s.data.contains c

/-- Python `s.split()`: split on runs of whitespace, discarding empty
pieces. The first argument accumulates the current piece in reverse. -/
def wsSplitAux : List Char → List Char → List (List Char)
  | acc, [] => if acc.isEmpty then [] else [acc.reverse]
  | acc, c :: cs =>
    if c = ' ' ∨ c = '\t' ∨ c = '\n' ∨ c = '\r' then
      if acc.isEmpty then wsSplitAux [] cs else acc.reverse :: wsSplitAux [] cs
    else
      wsSplitAux (c :: acc) cs

/-- Python `s.split()` on a string. -/
def wsSplit (s : String) : List String :=
  (wsSplitAux [] s.data).map String.mk

/-- Decimal-digit test on a character, by code point. -/
def isDigitC (c : Char) : Bool :=
  48 ≤ c.toNat && c.toNat ≤ 57

/-- Python `int(s)` on the strings this program feeds it (the pieces of
a bracketed range): the decimal value of a non-empty all-digit string,
`none` (a `ValueError`) otherwise. -/
def pyToNat (s : String) : Option Nat :=
  match s.data with
  | [] => none
  | ds =>
    if ds.all isDigitC then some (ds.foldl (fun n c => n * 10 + (c.toNat - 48)) 0)
    else none

/-- Python `f-string` padding `f"{num:0{padding}d}"`: the decimal digits
of `num` left-padded with `0` to the requested width. -/
def padNum (num width : Nat) : String :=
  let s := toString num
  if s.length < width then String.mk (List.replicate (width - s.length) '0') ++ s else s

/-- Expansion of one bracketed range `pre[startStr-endStr]`:
`int(start_str)`, `int(end_str)` (a non-numeric bound raises `ValueError`,
hence `none`), then one name per integer of `range(start, end + 1)`,
zero-padded to the character width of the literal `start` token. An
inverted range makes `range` empty, so the spec contributes no names. -/
def expandRange (pre sStr eStr : String) : Option (List String) :=
  match pyToNat sStr, pyToNat eStr with
  | some s, some e => some ((List.range' s (e + 1 - s)).map (fun n => pre ++ padNum n sStr.length))
  | _, _ => none

/-- Expansion of one comma-separated node specification, following
`expand_nodes`'s per-spec branch: bracketed range, bracketed single
number, or bare token. -/
def expandSpec (spec : String) : Option (List String) :=
  if containsChar spec '[' ∧ containsChar spec ']' then
    let pre := ((pySplitOn spec "[").headD "")
    let rangePart := (pySplitOn ((pySplitOn spec "[").getD 1 "") "]").headD ""
    if containsChar rangePart '-' then
      match pySplitOn rangePart "-" with
      | [sStr, eStr] => expandRange pre sStr eStr
      | _ => none
    else
      match pyToNat rangePart with
      | some n => some [pre ++ padNum n rangePart.length]
      | none => none
  else
    some [spec]

/-- Hostlist expansion `expand_nodes(raw)`: take the token after
`Nodes=`, split it on commas, and expand each specification.
`none` models an uncaught Python exception (missing `Nodes=`, empty
token, or a `ValueError` from `int`). -/
def expand_nodes (raw : String) : Option (List String) :=
  match pySplitOn raw "Nodes=" with
  | _ :: second :: _ =>
    match wsSplit second with
    | [] => none
    | nodesPart :: _ =>
      (pySplitOn nodesPart ",").foldl
        (fun acc sp => do
          let l ← acc
          let e ← expandSpec sp
          pure (l ++ e))
        (some [])
  | _ => none

/-! ### Switch hierarchy and distance (`parsers.calculate_switch_distance`) -/

/-- Switch hierarchy as built by `parse_topology_file`: `parents` maps a
leaf switch to the verbatim string after `Switches=` (the comma-separated
parent list is stored unsplit), `children` maps a parent to its leaf
switches. -/
structure SwitchHierarchy where
  parents : List (Switch × String)
  children : List (Switch × List Switch)

/-- Coarse switch distance `calculate_switch_distance`: `0` for equal
switches; `2` when either switch has no recorded parent entry; `1` when
both recorded parent strings are non-empty (Python truthiness) and equal
as whole strings; `2` otherwise. -/
def calculate_switch_distance (s1 s2 : Switch) (h : SwitchHierarchy) : Nat :=
  if s1 = s2 then 0
  else
    match alookup s1 h.parents, alookup s2 h.parents with
    | some p1, some p2 => if p1 ≠ "" ∧ p2 ≠ "" ∧ p1 = p2 then 1 else 2
    | _, _ => 2

/-- First-listed parent of a recorded parent string, for stating the
specification's reading of the distance metric: the part before the
first comma. -/
def firstParent (ps : String) : String :=
  (pySplitOn ps ",").headD ""

/-! ### Switch grouper (`parsers.group_nodes_by_switch`) -/

/-- Python `dict.setdefault(k, []).append(v)` on an insertion-ordered
dict: append `v` to the entry of `k`, creating the entry at the end if
absent. -/
def appendTo (k : Switch) (v : Node) : List (Switch × List Node) → List (Switch × List Node)
  | [] => [(k, [v])]
  | (k', vs) :: rest => if k' = k then (k', vs ++ [v]) :: rest else (k', vs) :: appendTo k v rest

/-- Grouping of allocated nodes by their switch, `group_nodes_by_switch`:
each node whose lookup yields a truthy switch name is appended to that
switch's group; nodes with no (or an empty) switch are only counted for
a warning and do not reach any group. -/
def group_nodes_by_switch (allocated : List Node) (node_to_switch : List (Node × Switch)) :
    List (Switch × List Node) :=
  allocated.foldl
    (fun acc nd =>
      match alookup nd node_to_switch with
      | some sw => if sw ≠ "" then appendTo sw nd acc else acc
      | none => acc)
    []

/-! ### Partitioning strategies (`strategies.py`) -/

/-- Single-switch shortcut `_handle_single_switch_case`: concatenate the
per-switch sorted node lists in insertion order, give the first
`workload_a_nodes` to A and everything that remains to B. -/
def handle_single_switch_case (stn : List (Switch × List Node)) (workload_a_nodes : Nat) :
    List Node × List Node :=
  let allNodes := stn.foldl (fun acc p => acc ++ sortNodes p.2) []
  (allNodes.take workload_a_nodes, allNodes.drop workload_a_nodes)

/-- State threaded through the per-switch loop of the `even` strategy:
the two workload lists, the two running totals, and the
`allocated_nodes` set (kept as a list, used only via membership). -/
structure EvenState where
  a : List Node
  b : List Node
  totalA : Nat
  totalB : Nat
  placed : List Node

/-- One iteration of the `even` strategy's per-switch loop: choose
`a_count`/`b_count` for this switch and extend the state. Natural-number
subtraction `wa - totalA` is Python's `max(0, wa - total_a)`. -/
def evenStep (stn : List (Switch × List Node)) (wa wb : Nat) (sw : Switch) (st : EvenState) :
    EvenState :=
  let nodes := groupOf stn sw
  let n := nodes.length
  let needA := wa - st.totalA
  let needB := wb - st.totalB
  let counts : Nat × Nat :=
    if n ≤ needA + needB then
      if needA = 0 then (0, min n needB)
      else if needB = 0 then (min n needA, 0)
      else
        let ac := min (roundHalfEvenNat (n * needA) (needA + needB)) needA
        (ac, min (n - ac) needB)
    else
      if wa = 0 then (0, n)
      else if wb = 0 then (n, 0)
      else
        let ac := min (roundHalfEvenNat (n * wa) (wa + wb)) needA
        (ac, min (n - ac) needB)
  { a := st.a ++ nodes.take counts.1
    b := st.b ++ (nodes.drop counts.1).take counts.2
    totalA := st.totalA + counts.1
    totalB := st.totalB + counts.2
    placed := st.placed ++ nodes.take (counts.1 + counts.2) }

/-- The `even` strategy's loop over the lexicographically sorted switch
names, with the early break once both totals have reached their
targets. -/
def evenLoop (stn : List (Switch × List Node)) (wa wb : Nat) :
    List Switch → EvenState → EvenState
  | [], st => st
  | sw :: rest, st =>
    if wa ≤ st.totalA ∧ wb ≤ st.totalB then st
    else evenLoop stn wa wb rest (evenStep stn wa wb sw st)

/-- Body of `evenly_split_nodes_between_workloads`, parametrised by the
enumeration order `pick` of the Python set difference in the final
unallocated-remainder step. -/
def evenCore (pick : List Node → List Node) (stn : List (Switch × List Node)) (wa wb : Nat) :
    List Node × List Node :=
  if stn.length = 1 then handle_single_switch_case stn wa
  else
    let sortedKeys := sortNodes (stn.map Prod.fst)
    let allNodes := sortedKeys.foldl (fun acc sw => acc ++ groupOf stn sw) []
    let st := evenLoop stn wa wb sortedKeys ⟨[], [], 0, 0, []⟩
    (st.a, st.b ++ sortedSetDiff pick allNodes st.placed)

/-- `evenly_split_nodes_between_workloads` with the canonical set
enumeration. -/
def evenly_split_nodes_between_workloads (stn : List (Switch × List Node)) (wa wb : Nat) :
    List Node × List Node :=
  evenCore (fun l => l) stn wa wb

/-- Largest-switch search of the `compact` strategy: fold over the
mapping in insertion order keeping the first switch whose node count
strictly exceeds the running maximum (initially `None`, `0`). -/
def findLargest (stn : List (Switch × List Node)) : Option Switch × Nat :=
  stn.foldl (fun acc p => if acc.2 < p.2.length then (some p.1, p.2.length) else acc) (none, 0)

/-- What one switch contributes to workload A inside the `compact`
strategy's fill loop: the whole sorted group when it fits in `needed`,
otherwise the Python slice `switch_nodes[:nodes_needed]` with the need
then set to `0`. Returns the contribution and the updated need. -/
def compactTaken (switchNodes : List Node) (needed : Int) : List Node × Int :=
  if (switchNodes.length : Int) ≤ needed then (switchNodes, needed - switchNodes.length)
  else (pyTake switchNodes needed, 0)

/-- The `compact` strategy's loop over the distance-ranked remaining
switches: extend A by each switch's contribution and stop as soon as
the remaining need is `≤ 0`. Returns the extended A and the remaining
need. -/
def compactLoop (stn : List (Switch × List Node)) :
    List Switch → List Node → Int → List Node × Int
  | [], a, needed => (a, needed)
  | sw :: rest, a, needed =>
    let t := compactTaken (groupOf stn sw) needed
    if t.2 ≤ 0 then (a ++ t.1, t.2)
    else compactLoop stn rest (a ++ t.1) t.2

/-- Ranking of the switches other than the largest one by distance from
the largest switch: build `(switch, distance)` pairs in the mapping's
insertion order and stable-sort them by distance. -/
def rankedOthers (stn : List (Switch × List Node)) (hier : SwitchHierarchy) (ls : Switch) :
    List (Switch × Nat) :=
  (((stn.map Prod.fst).filter (fun sw => sw ≠ ls)).map
    (fun sw => (sw, calculate_switch_distance ls sw hier))).insertionSort (fun p q => p.2 ≤ q.2)

/-- Main body of the `compact` strategy once a usable largest switch
`ls` has been found: seed A with the first sorted node of `ls`, feed up
to `wb` of its remaining nodes to B, fill A from the distance-ranked
other switches, draw any A shortfall from the reserve of `ls`, and top
up B from the sorted unallocated remainder. -/
def compactMain (pick : List Node → List Node) (stn : List (Switch × List Node))
    (hier : SwitchHierarchy) (ls : Switch) (wa wb : Nat) : List Node × List Node :=
  let allNodes := concatVals stn
  let sortedNs := groupOf stn ls
  let a1 := [sortedNs.headI]
  let rem := sortedNs.tail
  let bTake := min wb rem.length
  let b1 := rem.take bTake
  let rem2 := rem.drop bTake
  let loopRes := compactLoop stn ((rankedOthers stn hier ls).map Prod.fst) a1 ((wa : Int) - a1.length)
  let aFinal := if 0 < loopRes.2 then loopRes.1 ++ rem2.take loopRes.2.toNat else loopRes.1
  let neededB := wb - b1.length
  let bFinal :=
    if 0 < neededB then b1 ++ (sortedSetDiff pick allNodes (aFinal ++ b1)).take neededB
    else b1
  (aFinal, bFinal)

/-- Body of `compact_split_nodes_between_workloads`, parametrised by the
set enumeration order `pick` used in the final unallocated-remainder
step. The `node_to_switch` argument is accepted and ignored exactly as
in the source. -/
def compactCore (pick : List Node → List Node) (stn : List (Switch × List Node))
    (_node_to_switch : List (Node × Switch)) (hier : SwitchHierarchy) (wa wb : Nat) :
    List Node × List Node :=
  if stn.length = 1 then handle_single_switch_case stn wa
  else
    match findLargest stn with
    | (none, _) => ([], [])
    | (some ls, _) =>
      if ls = "" then ([], [])
      else if ((alookup ls stn).getD []).length < 1 then ([], [])
      else compactMain pick stn hier ls wa wb

/-- `compact_split_nodes_between_workloads` with the canonical set
enumeration. -/
def compact_split_nodes_between_workloads (stn : List (Switch × List Node))
    (node_to_switch : List (Node × Switch)) (hier : SwitchHierarchy) (wa wb : Nat) :
    List Node × List Node :=
  compactCore (fun l => l) stn node_to_switch hier wa wb

/-! ### General lemmas about the helpers -/

theorem headI_mem_self {l : List Node} (h : l ≠ []) : l.headI ∈ l := by
  cases l with
  | nil => exact absurd rfl h
  | cons x xs => exact List.mem_cons_self x xs

theorem foldl_append_eq {α β : Type} (f : α → List β) :
    ∀ (l : List α) (init : List β),
      l.foldl (fun acc p => acc ++ f p) init = init ++ (l.map f).flatten
  | [], init => by simp
  | p :: rest, init => by
    simp [foldl_append_eq f rest (init ++ f p), List.append_assoc]

theorem concatVals_eq (stn : List (Switch × List Node)) :
    concatVals stn = (stn.map (fun p => p.2)).flatten := by
  simpa using foldl_append_eq (fun p : Switch × List Node => p.2) stn []

theorem concatVals_cons (k : Switch) (v : List Node) (rest : List (Switch × List Node)) :
    concatVals ((k, v) :: rest) = v ++ concatVals rest := by
  simp [concatVals_eq]

theorem mem_concatVals {x : Node} {stn : List (Switch × List Node)} :
    x ∈ concatVals stn ↔ ∃ p ∈ stn, x ∈ p.2 := by
  rw [concatVals_eq]
  simp only [List.mem_flatten, List.mem_map]
  constructor
  · rintro ⟨l, ⟨p, hp, rfl⟩, hx⟩
    exact ⟨p, hp, hx⟩
  · rintro ⟨p, hp, hx⟩
    exact ⟨p.2, ⟨p, hp, rfl⟩, hx⟩

theorem sortNodes_perm (l : List Node) : (sortNodes l).Perm l :=
  List.perm_insertionSort _ l

theorem mem_sortNodes {x : Node} {l : List Node} : x ∈ sortNodes l ↔ x ∈ l :=
  (sortNodes_perm l).mem_iff

theorem sortNodes_nodup {l : List Node} (h : l.Nodup) : (sortNodes l).Nodup :=
  ((sortNodes_perm l).nodup_iff).mpr h

theorem sortNodes_length (l : List Node) : (sortNodes l).length = l.length :=
  (sortNodes_perm l).length_eq

theorem sortNodes_sorted (l : List Node) : (sortNodes l).Sorted strLe :=
  List.sorted_insertionSort _ l

theorem sortNodes_eq_of_perm {l1 l2 : List Node} (h : l1.Perm l2) :
    sortNodes l1 = sortNodes l2 :=
  List.eq_of_perm_of_sorted (((sortNodes_perm l1).trans h).trans (sortNodes_perm l2).symm)
    (sortNodes_sorted l1) (sortNodes_sorted l2)

theorem alookup_mem {β : Type} {k : String} {v : β} :
    ∀ {l : List (String × β)}, alookup k l = some v → (k, v) ∈ l
  | [], h => by simp [alookup] at h
  | (k', v') :: rest, h => by
    by_cases hk : k' = k
    · rw [alookup, if_pos hk] at h
      cases h
      exact hk ▸ List.mem_cons_self _ _
    · rw [alookup, if_neg hk] at h
      exact List.mem_cons_of_mem _ (alookup_mem h)

theorem alookup_some_mem_concatVals {k : Switch} {v : List Node}
    {stn : List (Switch × List Node)} (h : alookup k stn = some v) :
    ∀ x ∈ v, x ∈ concatVals stn :=
  fun x hx => mem_concatVals.mpr ⟨(k, v), alookup_mem h, hx⟩

theorem alookup_nodup {k : Switch} {v : List Node} :
    ∀ {stn : List (Switch × List Node)},
      (concatVals stn).Nodup → alookup k stn = some v → v.Nodup
  | [], _, h => by simp [alookup] at h
  | (k', u) :: rest, hnd, h => by
    rw [concatVals_cons] at hnd
    obtain ⟨hu, hrest, -⟩ := List.nodup_append.mp hnd
    by_cases hk : k' = k
    · rw [alookup, if_pos hk] at h
      cases h
      exact hu
    · rw [alookup, if_neg hk] at h
      exact alookup_nodup hrest h

theorem alookup_disjoint {k k' : Switch} {v v' : List Node} :
    ∀ {stn : List (Switch × List Node)},
      (concatVals stn).Nodup → k ≠ k' →
      alookup k stn = some v → alookup k' stn = some v' →
      ∀ x ∈ v, x ∉ v'
  | [], _, _, h, _ => by simp [alookup] at h
  | (k0, u) :: rest, hnd, hne, h1, h2 => by
    rw [concatVals_cons] at hnd
    obtain ⟨hu, hrest, hdisj⟩ := List.nodup_append.mp hnd
    rw [alookup] at h1 h2
    by_cases e1 : k0 = k
    · rw [if_pos e1] at h1
      cases h1
      have e2 : ¬ k0 = k' := fun hh => hne ((e1.symm.trans hh))
      rw [if_neg e2] at h2
      intro x hx hx'
      exact hdisj hx (alookup_some_mem_concatVals h2 x hx')
    · rw [if_neg e1] at h1
      by_cases e2 : k0 = k'
      · rw [if_pos e2] at h2
        cases h2
        intro x hx hx'
        exact hdisj hx' (alookup_some_mem_concatVals h1 x hx)
      · rw [if_neg e2] at h2
        exact alookup_disjoint hrest hne h1 h2

theorem mem_groupOf {x : Node} {stn : List (Switch × List Node)} {sw : Switch}
    (h : x ∈ groupOf stn sw) : x ∈ concatVals stn := by
  rw [groupOf, mem_sortNodes] at h
  cases hl : alookup sw stn with
  | none => rw [hl] at h; simp at h
  | some v =>
    rw [hl] at h
    exact alookup_some_mem_concatVals hl x h

theorem groupOf_nodup {stn : List (Switch × List Node)} {sw : Switch}
    (hnd : (concatVals stn).Nodup) : (groupOf stn sw).Nodup := by
  rw [groupOf]
  cases hl : alookup sw stn with
  | none => simp [sortNodes, List.insertionSort]
  | some v => exact sortNodes_nodup (alookup_nodup hnd hl)

theorem groupOf_disjoint {stn : List (Switch × List Node)} {sw sw' : Switch}
    (hnd : (concatVals stn).Nodup) (hne : sw ≠ sw') :
    ∀ x, x ∈ groupOf stn sw → x ∈ groupOf stn sw' → False := by
  intro x hx hx'
  rw [groupOf, mem_sortNodes] at hx hx'
  cases h1 : alookup sw stn with
  | none => rw [h1] at hx; simp at hx
  | some v =>
    cases h2 : alookup sw' stn with
    | none => rw [h2] at hx'; simp at hx'
    | some v' =>
      rw [h1] at hx
      rw [h2] at hx'
      exact alookup_disjoint hnd hne h1 h2 x hx hx'

theorem mem_sortedSetDiff {x : Node} {allNodes placed : List Node}
    (h : x ∈ sortedSetDiff (fun l => l) allNodes placed) : x ∈ allNodes ∧ x ∉ placed := by
  rw [sortedSetDiff, mem_sortNodes] at h
  have hf := List.mem_filter.mp h
  refine ⟨List.mem_dedup.mp hf.1, ?_⟩
  simpa using hf.2

theorem sortedSetDiff_pick {pick : List Node → List Node} (hp : ∀ l, (pick l).Perm l)
    (allNodes placed : List Node) :
    sortedSetDiff pick allNodes placed = sortedSetDiff (fun l => l) allNodes placed :=
  sortNodes_eq_of_perm (hp _)

theorem merged_sorted_perm (stn : List (Switch × List Node)) :
    (stn.foldl (fun acc p => acc ++ sortNodes p.2) []).Perm (concatVals stn) := by
  rw [foldl_append_eq (fun p : Switch × List Node => sortNodes p.2) stn [], List.nil_append,
    concatVals_eq]
  induction stn with
  | nil => simp
  | cons p rest ih =>
    simp only [List.map_cons, List.flatten_cons]
    exact (sortNodes_perm p.2).append ih

theorem handle_single_subset (stn : List (Switch × List Node)) (wa : Nat) :
    (∀ x ∈ (handle_single_switch_case stn wa).1, x ∈ concatVals stn) ∧
    (∀ x ∈ (handle_single_switch_case stn wa).2, x ∈ concatVals stn) := by
  rw [handle_single_switch_case]
  constructor
  · intro x hx
    exact (merged_sorted_perm stn).mem_iff.mp (List.take_subset _ _ hx)
  · intro x hx
    exact (merged_sorted_perm stn).mem_iff.mp (List.drop_subset _ _ hx)

theorem handle_single_disjoint (stn : List (Switch × List Node)) (wa : Nat)
    (hnd : (concatVals stn).Nodup) :
    ∀ x ∈ (handle_single_switch_case stn wa).1, x ∉ (handle_single_switch_case stn wa).2 := by
  intro x hx hx'
  rw [handle_single_switch_case] at hx hx'
  have hmnd : (stn.foldl (fun acc p => acc ++ sortNodes p.2) []).Nodup :=
    ((merged_sorted_perm stn).nodup_iff).mpr hnd
  exact List.disjoint_take_drop hmnd (le_refl wa) hx hx'

/-! ### Invariants of the `even` strategy loop -/

/-- Weak loop invariant: both workloads are recorded in `placed`, and
everything placed comes from the switch groups. -/
def EvenSubP (stn : List (Switch × List Node)) (st : EvenState) : Prop :=
  (∀ x ∈ st.a, x ∈ st.placed) ∧ (∀ x ∈ st.b, x ∈ st.placed) ∧
  (∀ x ∈ st.placed, x ∈ concatVals stn)

/-- Strong loop invariant: `EvenSubP` together with disjointness of the
two workloads. -/
def EvenInvP (stn : List (Switch × List Node)) (st : EvenState) : Prop :=
  EvenSubP stn st ∧ (∀ x ∈ st.a, x ∉ st.b)

theorem evenExtend_sub (stn : List (Switch × List Node)) (st : EvenState)
    (nodes : List Node) (c1 c2 : Nat) (tA tB : Nat)
    (hIn : ∀ x ∈ nodes, x ∈ concatVals stn) (h : EvenSubP stn st) :
    EvenSubP stn ⟨st.a ++ nodes.take c1, st.b ++ (nodes.drop c1).take c2,
      tA, tB, st.placed ++ nodes.take (c1 + c2)⟩ := by
  obtain ⟨hA, hB, hP⟩ := h
  refine ⟨?_, ?_, ?_⟩
  · intro x hx
    rcases List.mem_append.mp hx with h' | h'
    · exact List.mem_append_left _ (hA x h')
    · apply List.mem_append_right
      rw [List.take_add]
      exact List.mem_append_left _ h'
  · intro x hx
    rcases List.mem_append.mp hx with h' | h'
    · exact List.mem_append_left _ (hB x h')
    · apply List.mem_append_right
      rw [List.take_add]
      exact List.mem_append_right _ h'
  · intro x hx
    rcases List.mem_append.mp hx with h' | h'
    · exact hP x h'
    · exact hIn x (List.take_subset _ _ h')

theorem evenExtend_inv (stn : List (Switch × List Node)) (st : EvenState)
    (nodes : List Node) (c1 c2 : Nat) (tA tB : Nat)
    (hNd : nodes.Nodup) (hIn : ∀ x ∈ nodes, x ∈ concatVals stn)
    (hFresh : ∀ x ∈ nodes, x ∉ st.placed) (h : EvenInvP stn st) :
    EvenInvP stn ⟨st.a ++ nodes.take c1, st.b ++ (nodes.drop c1).take c2,
      tA, tB, st.placed ++ nodes.take (c1 + c2)⟩ := by
  obtain ⟨hSub, hDisj⟩ := h
  refine ⟨evenExtend_sub stn st nodes c1 c2 tA tB hIn hSub, ?_⟩
  intro x hx hx'
  rcases List.mem_append.mp hx with ha | ha
  · rcases List.mem_append.mp hx' with hb | hb
    · exact hDisj x ha hb
    · exact hFresh x (List.drop_subset _ _ (List.take_subset _ _ hb)) (hSub.1 x ha)
  · rcases List.mem_append.mp hx' with hb | hb
    · exact hFresh x (List.take_subset _ _ ha) (hSub.2.1 x hb)
    · exact List.disjoint_take_drop hNd (le_refl c1) ha (List.take_subset _ _ hb)

theorem evenStep_sub (stn : List (Switch × List Node)) (wa wb : Nat) (sw : Switch)
    (st : EvenState) (h : EvenSubP stn st) : EvenSubP stn (evenStep stn wa wb sw st) :=
  evenExtend_sub stn st (groupOf stn sw) _ _ _ _ (fun x hx => mem_groupOf hx) h

theorem evenStep_inv (stn : List (Switch × List Node)) (wa wb : Nat) (sw : Switch)
    (st : EvenState) (hNd : (concatVals stn).Nodup)
    (hFresh : ∀ x ∈ groupOf stn sw, x ∉ st.placed) (h : EvenInvP stn st) :
    EvenInvP stn (evenStep stn wa wb sw st) :=
  evenExtend_inv stn st (groupOf stn sw) _ _ _ _ (groupOf_nodup hNd)
    (fun x hx => mem_groupOf hx) hFresh h

theorem evenStep_placed (stn : List (Switch × List Node)) (wa wb : Nat) (sw : Switch)
    (st : EvenState) :
    ∀ x ∈ (evenStep stn wa wb sw st).placed, x ∈ st.placed ∨ x ∈ groupOf stn sw := by
  intro x hx
  rcases List.mem_append.mp hx with h | h
  · exact Or.inl h
  · exact Or.inr (List.take_subset _ _ h)

theorem evenLoop_sub (stn : List (Switch × List Node)) (wa wb : Nat) :
    ∀ (ks : List Switch) (st : EvenState),
      EvenSubP stn st → EvenSubP stn (evenLoop stn wa wb ks st)
  | [], st, h => h
  | sw :: rest, st, h => by
    rw [evenLoop]
    split
    · exact h
    · exact evenLoop_sub stn wa wb rest _ (evenStep_sub stn wa wb sw st h)

theorem evenLoop_inv (stn : List (Switch × List Node)) (wa wb : Nat)
    (hNd : (concatVals stn).Nodup) :
    ∀ (ks : List Switch) (st : EvenState),
      EvenInvP stn st →
      (∀ sw ∈ ks, ∀ x ∈ groupOf stn sw, x ∉ st.placed) →
      ks.Pairwise (fun s t => ∀ x, x ∈ groupOf stn s → x ∈ groupOf stn t → False) →
      EvenInvP stn (evenLoop stn wa wb ks st)
  | [], st, h, _, _ => h
  | sw :: rest, st, h, hFresh, hPw => by
    rw [evenLoop]
    split
    · exact h
    · have hPwHead := (List.pairwise_cons.mp hPw).1
      have hPwTail := (List.pairwise_cons.mp hPw).2
      apply evenLoop_inv stn wa wb hNd rest _
        (evenStep_inv stn wa wb sw st hNd (hFresh sw (List.mem_cons_self _ _)) h)
      · intro sw' hsw' x hx hx'
        rcases evenStep_placed stn wa wb sw st x hx' with hc | hc
        · exact hFresh sw' (List.mem_cons_of_mem _ hsw') x hx hc
        · exact hPwHead sw' hsw' x hc hx
      · exact hPwTail

theorem mem_evenAllNodes {stn : List (Switch × List Node)} {x : Node}
    (h : x ∈ (sortNodes (stn.map Prod.fst)).foldl (fun acc sw => acc ++ groupOf stn sw) []) :
    x ∈ concatVals stn := by
  rw [foldl_append_eq (groupOf stn) _ []] at h
  simp only [List.nil_append, List.mem_flatten, List.mem_map] at h
  obtain ⟨l, ⟨sw, hsw, rfl⟩, hx⟩ := h
  exact mem_groupOf hx

theorem evenInit_sub (stn : List (Switch × List Node)) :
    EvenSubP stn ⟨[], [], 0, 0, []⟩ := by
  refine ⟨?_, ?_, ?_⟩ <;> intro x hx <;> simp at hx

theorem evenInit_inv (stn : List (Switch × List Node)) :
    EvenInvP stn ⟨[], [], 0, 0, []⟩ := by
  refine ⟨evenInit_sub stn, ?_⟩
  intro x hx
  simp at hx

theorem even_subset (stn : List (Switch × List Node)) (wa wb : Nat) :
    (∀ x ∈ (evenly_split_nodes_between_workloads stn wa wb).1, x ∈ concatVals stn) ∧
    (∀ x ∈ (evenly_split_nodes_between_workloads stn wa wb).2, x ∈ concatVals stn) := by
  rw [evenly_split_nodes_between_workloads, evenCore]
  split
  · exact handle_single_subset stn wa
  · have hsub := evenLoop_sub stn wa wb (sortNodes (stn.map Prod.fst)) ⟨[], [], 0, 0, []⟩
      (evenInit_sub stn)
    constructor
    · intro x hx
      exact hsub.2.2 x (hsub.1 x hx)
    · intro x hx
      rcases List.mem_append.mp hx with h | h
      · exact hsub.2.2 x (hsub.2.1 x h)
      · exact mem_evenAllNodes (mem_sortedSetDiff h).1

theorem even_disjoint (stn : List (Switch × List Node)) (wa wb : Nat)
    (hK : (stn.map Prod.fst).Nodup) (hN : (concatVals stn).Nodup) :
    ∀ x ∈ (evenly_split_nodes_between_workloads stn wa wb).1,
      x ∉ (evenly_split_nodes_between_workloads stn wa wb).2 := by
  rw [evenly_split_nodes_between_workloads, evenCore]
  split
  · exact handle_single_disjoint stn wa hN
  · have hKeysNd : (sortNodes (stn.map Prod.fst)).Nodup :=
      ((sortNodes_perm (stn.map Prod.fst)).nodup_iff).mpr hK
    have hPw : (sortNodes (stn.map Prod.fst)).Pairwise
        (fun s t => ∀ x, x ∈ groupOf stn s → x ∈ groupOf stn t → False) :=
      hKeysNd.imp (fun hne => groupOf_disjoint hN hne)
    have hInv := evenLoop_inv stn wa wb hN (sortNodes (stn.map Prod.fst)) ⟨[], [], 0, 0, []⟩
      (evenInit_inv stn) (by intro sw _ x _ hc; simp at hc) hPw
    intro x hx hx'
    rcases List.mem_append.mp hx' with h | h
    · exact hInv.2 x hx h
    · exact (mem_sortedSetDiff h).2 (hInv.1.1 x hx)

/-! ### Lemmas about the `compact` strategy -/

theorem compactTaken_subset (switchNodes : List Node) (needed : Int) :
    ∀ x ∈ (compactTaken switchNodes needed).1, x ∈ switchNodes := by
  intro x hx
  rw [compactTaken] at hx
  split at hx
  · exact hx
  · rw [pyTake] at hx
    split at hx
    · exact List.take_subset _ _ hx
    · exact List.take_subset _ _ hx

theorem compactLoop_pre (stn : List (Switch × List Node)) :
    ∀ (sws : List Switch) (a : List Node) (needed : Int) (x : Node),
      x ∈ a → x ∈ (compactLoop stn sws a needed).1
  | [], _, _, _, hx => hx
  | sw :: rest, a, needed, x, hx => by
    rw [compactLoop]
    split
    · exact List.mem_append_left _ hx
    · exact compactLoop_pre stn rest _ _ x (List.mem_append_left _ hx)

theorem compactLoop_mem (stn : List (Switch × List Node)) :
    ∀ (sws : List Switch) (a : List Node) (needed : Int) (x : Node),
      x ∈ (compactLoop stn sws a needed).1 →
      x ∈ a ∨ ∃ sw ∈ sws, x ∈ groupOf stn sw
  | [], _, _, _, hx => Or.inl hx
  | sw :: rest, a, needed, x, hx => by
    rw [compactLoop] at hx
    split at hx
    · rcases List.mem_append.mp hx with h | h
      · exact Or.inl h
      · exact Or.inr ⟨sw, List.mem_cons_self _ _, compactTaken_subset _ _ x h⟩
    · rcases compactLoop_mem stn rest _ _ x hx with h | ⟨sw', hsw', hmem⟩
      · rcases List.mem_append.mp h with h' | h'
        · exact Or.inl h'
        · exact Or.inr ⟨sw, List.mem_cons_self _ _, compactTaken_subset _ _ x h'⟩
      · exact Or.inr ⟨sw', List.mem_cons_of_mem _ hsw', hmem⟩

theorem compactLoop_neg_one (stn : List (Switch × List Node)) (sw : Switch)
    (rest : List Switch) (a : List Node) :
    compactLoop stn (sw :: rest) a (-1) = (a ++ pyTake (groupOf stn sw) (-1), 0) := by
  have h1 : ¬ (((groupOf stn sw).length : Int) ≤ -1) := by
    have := Int.natCast_nonneg (groupOf stn sw).length
    omega
  rw [compactLoop]
  simp only [compactTaken, if_neg h1]
  norm_num

theorem mem_rankedOthers_fst {stn : List (Switch × List Node)} {hier : SwitchHierarchy}
    {ls sw : Switch} (h : sw ∈ (rankedOthers stn hier ls).map Prod.fst) : sw ≠ ls := by
  simp only [rankedOthers, List.mem_map, List.mem_insertionSort, List.mem_filter] at h
  obtain ⟨p, hp, rfl⟩ := h
  obtain ⟨s, ⟨hs, hne⟩, rfl⟩ := hp
  simpa using hne

theorem compactMain_subset (stn : List (Switch × List Node)) (hier : SwitchHierarchy)
    (ls : Switch) (wa wb : Nat) (hne : groupOf stn ls ≠ []) :
    (∀ x ∈ (compactMain (fun l => l) stn hier ls wa wb).1, x ∈ concatVals stn) ∧
    (∀ x ∈ (compactMain (fun l => l) stn hier ls wa wb).2, x ∈ concatVals stn) := by
  have hTail : ∀ x ∈ (groupOf stn ls).tail, x ∈ concatVals stn := fun x hx =>
    mem_groupOf (List.tail_subset _ hx)
  have hLoop : ∀ (needed : Int) (x : Node),
      x ∈ (compactLoop stn ((rankedOthers stn hier ls).map Prod.fst)
        [(groupOf stn ls).headI] needed).1 → x ∈ concatVals stn := by
    intro needed x hx
    rcases compactLoop_mem stn _ _ _ x hx with h | ⟨sw, _, hmem⟩
    · rw [List.mem_singleton] at h
      exact h ▸ mem_groupOf (headI_mem_self hne)
    · exact mem_groupOf hmem
  simp only [compactMain]
  constructor
  · intro x hx
    split at hx
    · rcases List.mem_append.mp hx with h | h
      · exact hLoop _ x h
      · exact hTail x (List.drop_subset _ _ (List.take_subset _ _ h))
    · exact hLoop _ x hx
  · intro x hx
    split at hx
    · rcases List.mem_append.mp hx with h | h
      · exact hTail x (List.take_subset _ _ h)
      · exact (mem_sortedSetDiff (List.take_subset _ _ h)).1
    · exact hTail x (List.take_subset _ _ hx)

theorem compactMain_disjoint (stn : List (Switch × List Node)) (hier : SwitchHierarchy)
    (ls : Switch) (wa wb : Nat) (hN : (concatVals stn).Nodup)
    (hne : groupOf stn ls ≠ []) :
    ∀ x ∈ (compactMain (fun l => l) stn hier ls wa wb).1,
      x ∉ (compactMain (fun l => l) stn hier ls wa wb).2 := by
  have gNd : (groupOf stn ls).Nodup := groupOf_nodup hN
  have tailNd : (groupOf stn ls).tail.Nodup := gNd.sublist (List.tail_sublist _)
  have hHT : (groupOf stn ls).headI ∉ (groupOf stn ls).tail := by
    cases hg : groupOf stn ls with
    | nil => exact absurd hg hne
    | cons y ys =>
      rw [hg] at gNd
      exact (List.nodup_cons.mp gNd).1
  have hLoopB1 : ∀ (needed : Int) (x : Node),
      x ∈ (compactLoop stn ((rankedOthers stn hier ls).map Prod.fst)
        [(groupOf stn ls).headI] needed).1 →
      x ∈ (groupOf stn ls).tail → False := by
    intro needed x hx hxT
    rcases compactLoop_mem stn _ _ _ x hx with h | ⟨sw, hsw, hmem⟩
    · rw [List.mem_singleton] at h
      exact hHT (h ▸ hxT)
    · exact groupOf_disjoint hN (mem_rankedOthers_fst hsw) x hmem (List.tail_subset _ hxT)
  have hANotB1 : ∀ (x : Node),
      x ∈ (compactMain (fun l => l) stn hier ls wa wb).1 →
      x ∈ (groupOf stn ls).tail.take (min wb (groupOf stn ls).tail.length) → False := by
    intro x hx hxB
    simp only [compactMain] at hx
    split at hx
    · rcases List.mem_append.mp hx with h | h
      · exact hLoopB1 _ x h (List.take_subset _ _ hxB)
      · exact List.disjoint_take_drop tailNd (le_refl (min wb (groupOf stn ls).tail.length))
          hxB (List.take_subset _ _ h)
    · exact hLoopB1 _ x hx (List.take_subset _ _ hxB)
  intro x hx hx'
  rw [compactMain] at hx'
  simp only at hx'
  split at hx'
  · rcases List.mem_append.mp hx' with h | h
    · exact hANotB1 x hx h
    · have hd := mem_sortedSetDiff (List.take_subset _ _ h)
      apply hd.2
      apply List.mem_append_left
      rw [compactMain] at hx
      exact hx
  · exact hANotB1 x hx hx'

theorem compactMain_head_mem (pick : List Node → List Node) (stn : List (Switch × List Node))
    (hier : SwitchHierarchy) (ls : Switch) (wa wb : Nat) :
    (groupOf stn ls).headI ∈ (compactMain pick stn hier ls wa wb).1 := by
  have hIn : (groupOf stn ls).headI ∈ ([(groupOf stn ls).headI] : List Node) :=
    List.mem_singleton.mpr rfl
  rw [compactMain]
  simp only
  split
  · exact List.mem_append_left _ (compactLoop_pre stn _ _ _ _ hIn)
  · exact compactLoop_pre stn _ _ _ _ hIn

theorem compactMain_b_from_largest (pick : List Node → List Node)
    (stn : List (Switch × List Node)) (hier : SwitchHierarchy) (ls : Switch) (wa wb : Nat)
    (hwa : 1 ≤ wa) (hlen : wa + wb ≤ (groupOf stn ls).length) :
    ∀ x ∈ (compactMain pick stn hier ls wa wb).2, x ∈ (alookup ls stn).getD [] := by
  have hTailLen : (groupOf stn ls).tail.length = (groupOf stn ls).length - 1 :=
    List.length_tail _
  have hNeed : ¬ 0 < wb -
      ((groupOf stn ls).tail.take (min wb (groupOf stn ls).tail.length)).length := by
    rw [List.length_take]
    omega
  intro x hx
  rw [compactMain] at hx
  simp only at hx
  rw [if_neg hNeed] at hx
  have : x ∈ groupOf stn ls := List.tail_subset _ (List.take_subset _ _ hx)
  rw [groupOf, mem_sortNodes] at this
  exact this

theorem compactMain_wa_zero (pick : List Node → List Node) (stn : List (Switch × List Node))
    (hier : SwitchHierarchy) (ls : Switch) (wb : Nat) (r : Switch) (rs : List Switch)
    (hr : (rankedOthers stn hier ls).map Prod.fst = r :: rs) :
    (compactMain pick stn hier ls 0 wb).1 =
      (groupOf stn ls).headI :: pyTake (groupOf stn r) (-1) := by
  rw [compactMain]
  simp only [hr, List.length_singleton]
  have hneg : ((0:Nat) : Int) - (1 : Nat) = -1 := by simp
  rw [hneg, compactLoop_neg_one]
  simp

theorem compact_split_eq_main (stn : List (Switch × List Node))
    (n2s : List (Node × Switch)) (hier : SwitchHierarchy) (wa wb : Nat) (ls : Switch) (cnt : Nat)
    (h1 : stn.length ≠ 1) (hF : findLargest stn = (some ls, cnt)) (hls : ls ≠ "")
    (hg : 1 ≤ ((alookup ls stn).getD []).length) :
    compact_split_nodes_between_workloads stn n2s hier wa wb =
      compactMain (fun l => l) stn hier ls wa wb := by
  have hg' : ¬ ((alookup ls stn).getD []).length < 1 := by omega
  rw [compact_split_nodes_between_workloads, compactCore, if_neg h1, hF]
  simp only [if_neg hls, if_neg hg']

theorem groupOf_ne_nil {stn : List (Switch × List Node)} {ls : Switch}
    (hg : 1 ≤ ((alookup ls stn).getD []).length) : groupOf stn ls ≠ [] := by
  intro hEq
  have := sortNodes_length ((alookup ls stn).getD [])
  rw [groupOf] at hEq
  rw [hEq] at this
  simp at this
  omega

theorem compact_subset (stn : List (Switch × List Node)) (n2s : List (Node × Switch))
    (hier : SwitchHierarchy) (wa wb : Nat) :
    (∀ x ∈ (compact_split_nodes_between_workloads stn n2s hier wa wb).1, x ∈ concatVals stn) ∧
    (∀ x ∈ (compact_split_nodes_between_workloads stn n2s hier wa wb).2, x ∈ concatVals stn) := by
  rw [compact_split_nodes_between_workloads, compactCore]
  split
  · exact handle_single_subset stn wa
  · cases hF : findLargest stn with
    | mk ols cnt =>
      cases ols with
      | none => simp
      | some ls =>
        dsimp only
        by_cases hls : ls = ""
        · rw [if_pos hls]
          constructor <;> intro x hx <;> simp at hx
        · rw [if_neg hls]
          by_cases hg : ((alookup ls stn).getD []).length < 1
          · rw [if_pos hg]
            constructor <;> intro x hx <;> simp at hx
          · have hne : groupOf stn ls ≠ [] := groupOf_ne_nil (by omega)
            rw [if_neg hg]
            exact compactMain_subset stn hier ls wa wb hne

theorem compact_disjoint (stn : List (Switch × List Node)) (n2s : List (Node × Switch))
    (hier : SwitchHierarchy) (wa wb : Nat) (hN : (concatVals stn).Nodup) :
    ∀ x ∈ (compact_split_nodes_between_workloads stn n2s hier wa wb).1,
      x ∉ (compact_split_nodes_between_workloads stn n2s hier wa wb).2 := by
  rw [compact_split_nodes_between_workloads, compactCore]
  split
  · exact handle_single_disjoint stn wa hN
  · cases hF : findLargest stn with
    | mk ols cnt =>
      cases ols with
      | none => simp
      | some ls =>
        dsimp only
        by_cases hls : ls = ""
        · rw [if_pos hls]
          intro x hx
          simp at hx
        · rw [if_neg hls]
          by_cases hg : ((alookup ls stn).getD []).length < 1
          · rw [if_pos hg]
            intro x hx
            simp at hx
          · have hne : groupOf stn ls ≠ [] := groupOf_ne_nil (by omega)
            rw [if_neg hg]
            exact compactMain_disjoint stn hier ls wa wb hN hne

/-! ### Lemmas about the switch grouper -/

theorem mem_concatVals_appendTo {x : Node} (k : Switch) (v : Node) :
    ∀ (l : List (Switch × List Node)),
      x ∈ concatVals (appendTo k v l) ↔ x = v ∨ x ∈ concatVals l
  | [] => by
    rw [appendTo, concatVals_cons]
    simp [concatVals]
  | (k0, vs) :: rest => by
    rw [appendTo]
    split
    · rw [concatVals_cons, concatVals_cons]
      simp only [List.mem_append, List.mem_singleton]
      tauto
    · rw [concatVals_cons, concatVals_cons]
      simp only [List.mem_append, mem_concatVals_appendTo k v rest]
      tauto

theorem alookup_appendTo_same (k : Switch) (v : Node) :
    ∀ (l : List (Switch × List Node)),
      alookup k (appendTo k v l) = some ((alookup k l).getD [] ++ [v])
  | [] => by simp [appendTo, alookup]
  | (k0, vs) :: rest => by
    rw [appendTo]
    by_cases hk : k0 = k
    · rw [if_pos hk, alookup, if_pos hk, alookup, if_pos hk]
      simp
    · rw [if_neg hk, alookup, if_neg hk, alookup, if_neg hk]
      exact alookup_appendTo_same k v rest

theorem alookup_appendTo_ne {s k : Switch} (hne : s ≠ k) (v : Node) :
    ∀ (l : List (Switch × List Node)), alookup s (appendTo k v l) = alookup s l
  | [] => by
    rw [appendTo, alookup, alookup]
    rw [if_neg (fun h => hne h.symm)]
    rfl
  | (k0, vs) :: rest => by
    rw [appendTo]
    by_cases hk : k0 = k
    · rw [if_pos hk, alookup, alookup]
      have : ¬ k0 = s := fun h => hne (h ▸ hk ▸ rfl)
      rw [if_neg this, if_neg this]
    · rw [if_neg hk, alookup, alookup]
      by_cases h0 : k0 = s
      · rw [if_pos h0, if_pos h0]
      · rw [if_neg h0, if_neg h0]
        exact alookup_appendTo_ne hne v rest

theorem group_fold_mem (n2s : List (Node × Switch)) :
    ∀ (allocated : List Node) (acc : List (Switch × List Node)) (x : Node),
      x ∈ concatVals (allocated.foldl
        (fun acc nd =>
          match alookup nd n2s with
          | some sw => if sw ≠ "" then appendTo sw nd acc else acc
          | none => acc) acc) →
      x ∈ concatVals acc ∨ ∃ sw, alookup x n2s = some sw ∧ sw ≠ ""
  | [], acc, x, h => Or.inl h
  | nd :: rest, acc, x, h => by
    rw [List.foldl_cons] at h
    cases hl : alookup nd n2s with
    | none =>
      rw [hl] at h
      exact group_fold_mem n2s rest acc x h
    | some sw =>
      rw [hl] at h
      dsimp only at h
      by_cases hsw : sw ≠ ""
      · rw [if_pos hsw] at h
        rcases group_fold_mem n2s rest _ x h with h' | h'
        · rcases (mem_concatVals_appendTo sw nd _).mp h' with rfl | h''
          · exact Or.inr ⟨sw, hl, hsw⟩
          · exact Or.inl h''
        · exact Or.inr h'
      · rw [if_neg hsw] at h
        exact group_fold_mem n2s rest acc x h

theorem group_mem {allocated : List Node} {n2s : List (Node × Switch)} {x : Node}
    (h : x ∈ concatVals (group_nodes_by_switch allocated n2s)) :
    ∃ sw, alookup x n2s = some sw ∧ sw ≠ "" := by
  rw [group_nodes_by_switch] at h
  rcases group_fold_mem n2s allocated [] x h with h' | h'
  · simp [concatVals] at h'
  · exact h'

theorem group_fold_lookup (n2s : List (Node × Switch)) (s : Switch) (hs : s ≠ "") :
    ∀ (allocated : List Node) (acc : List (Switch × List Node)),
      (alookup s (allocated.foldl
        (fun acc nd =>
          match alookup nd n2s with
          | some sw => if sw ≠ "" then appendTo sw nd acc else acc
          | none => acc) acc)).getD [] =
      (alookup s acc).getD [] ++ allocated.filter (fun nd => alookup nd n2s = some s)
  | [], acc => by simp
  | nd :: rest, acc => by
    rw [List.foldl_cons]
    cases hl : alookup nd n2s with
    | none =>
      have hpred : ¬ (alookup nd n2s = some s) := by rw [hl]; simp
      rw [group_fold_lookup n2s s hs rest acc]
      simp [hpred]
    | some sw =>
      dsimp only
      by_cases hsw : sw ≠ ""
      · rw [if_pos hsw]
        by_cases hss : sw = s
        · subst hss
          have hpred : alookup nd n2s = some sw := hl
          rw [group_fold_lookup n2s sw hs rest _, alookup_appendTo_same]
          simp [hpred]
        · have hpred : ¬ (alookup nd n2s = some s) := by rw [hl]; simp [hss]
          rw [group_fold_lookup n2s s hs rest _, alookup_appendTo_ne (fun h => hss h.symm)]
          simp [hpred]
      · rw [if_neg hsw]
        have hsw' : sw = "" := by simpa using hsw
        have hpred : ¬ (alookup nd n2s = some s) := by
          rw [hl, hsw']
          simp [Ne.symm hs]
        rw [group_fold_lookup n2s s hs rest acc]
        simp [hpred]

/-! ### Claim theorems -/

/-- Claim C1, counterexample: with a duplicated node in the allocated
set (the spec's AllocatedSet is "not necessarily unique"), the `even`
strategy returns lists of the requested lengths that are NOT disjoint:
on `{"s1": ["n", "n"]}` with `requested_a = requested_b = 1` it returns
`(["n"], ["n"])`. -/
theorem claim1_counterexample :
    (evenly_split_nodes_between_workloads [("s1", ["n", "n"])] 1 1).1.length = 1 ∧
    (evenly_split_nodes_between_workloads [("s1", ["n", "n"])] 1 1).2.length = 1 ∧
    ¬ (∀ x ∈ (evenly_split_nodes_between_workloads [("s1", ["n", "n"])] 1 1).1,
        x ∉ (evenly_split_nodes_between_workloads [("s1", ["n", "n"])] 1 1).2) := by
  decide

/-- Claim C1, amended: for every switch-group mapping with distinct
switch keys and no duplicate node across its groups, both strategies
(for every `requested_a`, `requested_b`, and for `compact` every
hierarchy) return workloads that are disjoint as sets and drawn
entirely from the mapping's nodes. -/
theorem claim1_strategies_disjoint_subset (stn : List (Switch × List Node))
    (n2s : List (Node × Switch)) (hier : SwitchHierarchy) (wa wb : Nat)
    (hK : (stn.map Prod.fst).Nodup) (hN : (concatVals stn).Nodup) :
    ((∀ x ∈ (evenly_split_nodes_between_workloads stn wa wb).1,
        x ∉ (evenly_split_nodes_between_workloads stn wa wb).2) ∧
      (∀ x ∈ (evenly_split_nodes_between_workloads stn wa wb).1, x ∈ concatVals stn) ∧
      (∀ x ∈ (evenly_split_nodes_between_workloads stn wa wb).2, x ∈ concatVals stn)) ∧
    ((∀ x ∈ (compact_split_nodes_between_workloads stn n2s hier wa wb).1,
        x ∉ (compact_split_nodes_between_workloads stn n2s hier wa wb).2) ∧
      (∀ x ∈ (compact_split_nodes_between_workloads stn n2s hier wa wb).1, x ∈ concatVals stn) ∧
      (∀ x ∈ (compact_split_nodes_between_workloads stn n2s hier wa wb).2, x ∈ concatVals stn)) :=
  ⟨⟨even_disjoint stn wa wb hK hN, (even_subset stn wa wb).1, (even_subset stn wa wb).2⟩,
   ⟨compact_disjoint stn n2s hier wa wb hN, (compact_subset stn n2s hier wa wb).1,
    (compact_subset stn n2s hier wa wb).2⟩⟩

/-- Witness for C1's amended theorem at a concrete input. -/
theorem claim1_witness :
    ((∀ x ∈ (evenly_split_nodes_between_workloads [("s1", ["a"]), ("s2", ["b"])] 1 1).1,
        x ∉ (evenly_split_nodes_between_workloads [("s1", ["a"]), ("s2", ["b"])] 1 1).2) ∧
      (∀ x ∈ (evenly_split_nodes_between_workloads [("s1", ["a"]), ("s2", ["b"])] 1 1).1,
        x ∈ concatVals [("s1", ["a"]), ("s2", ["b"])]) ∧
      (∀ x ∈ (evenly_split_nodes_between_workloads [("s1", ["a"]), ("s2", ["b"])] 1 1).2,
        x ∈ concatVals [("s1", ["a"]), ("s2", ["b"])])) ∧
    ((∀ x ∈ (compact_split_nodes_between_workloads [("s1", ["a"]), ("s2", ["b"])] []
          ⟨[], []⟩ 1 1).1,
        x ∉ (compact_split_nodes_between_workloads [("s1", ["a"]), ("s2", ["b"])] []
          ⟨[], []⟩ 1 1).2) ∧
      (∀ x ∈ (compact_split_nodes_between_workloads [("s1", ["a"]), ("s2", ["b"])] []
          ⟨[], []⟩ 1 1).1,
        x ∈ concatVals [("s1", ["a"]), ("s2", ["b"])]) ∧
      (∀ x ∈ (compact_split_nodes_between_workloads [("s1", ["a"]), ("s2", ["b"])] []
          ⟨[], []⟩ 1 1).2,
        x ∈ concatVals [("s1", ["a"]), ("s2", ["b"])])) :=
  claim1_strategies_disjoint_subset [("s1", ["a"]), ("s2", ["b"])] [] ⟨[], []⟩ 1 1
    (by decide) (by decide)

/-- Claim C2, counterexample: an inverted bracketed range does not make
the expansion fail; it returns a list (here the empty list), because
Python's `range(start, end + 1)` is simply empty. -/
theorem claim2_counterexample : expand_nodes "Nodes=p-[2-1]" = some [] := by decide

/-- Claim C2, amended: an inverted numeric range yields a successful
empty expansion (no error of any kind), while a non-numeric range bound
makes the expansion fail — with an uncaught `ValueError` from `int`,
not a `MalformedSpec` error (no such error exists in the code). -/
theorem claim2_inverted_and_nonnumeric (pre sStr eStr : String) :
    (∀ s e : Nat, pyToNat sStr = some s → pyToNat eStr = some e → e < s →
      expandRange pre sStr eStr = some []) ∧
    (pyToNat sStr = none ∨ pyToNat eStr = none → expandRange pre sStr eStr = none) := by
  constructor
  · intro s e hs he hlt
    rw [expandRange, hs, he]
    dsimp only
    have hz : e + 1 - s = 0 := by omega
    rw [hz]
    rfl
  · intro h
    rcases h with h | h
    · cases he : pyToNat eStr <;> rw [expandRange, h, he] <;> rfl
    · cases hs : pyToNat sStr <;> rw [expandRange, hs, h] <;> rfl

/-- Witness for C2's amended theorem at concrete inputs. -/
theorem claim2_witness :
    expandRange "p-" "2" "1" = some [] ∧ expandRange "p-" "x" "3" = none :=
  ⟨(claim2_inverted_and_nonnumeric "p-" "2" "1").1 2 1 (by decide) (by decide) (by decide),
   (claim2_inverted_and_nonnumeric "p-" "x" "3").2 (Or.inl (by decide))⟩

/-- Claim C3, counterexample: two distinct switches whose recorded
parent lists share the same first-listed parent but differ in the rest
get distance `2`, not `1`: the code compares the whole recorded comma
string, never splitting it. -/
theorem claim3_counterexample :
    ("s1" : Switch) ≠ "s2" ∧
    alookup "s1" (SwitchHierarchy.mk [("s1", "p1,p2"), ("s2", "p1,p3")] []).parents =
      some "p1,p2" ∧
    alookup "s2" (SwitchHierarchy.mk [("s1", "p1,p2"), ("s2", "p1,p3")] []).parents =
      some "p1,p3" ∧
    firstParent "p1,p2" = firstParent "p1,p3" ∧
    calculate_switch_distance "s1" "s2" (SwitchHierarchy.mk [("s1", "p1,p2"), ("s2", "p1,p3")] [])
      ≠ 1 := by
  decide

/-- Claim C3, amended: for distinct switches that both have a recorded
parent entry, the distance is `1` exactly when the two recorded parent
strings are non-empty and identical as whole strings (the comma list is
never split), and it is `2` in every other case. -/
theorem claim3_distance_whole_string (s1 s2 : Switch) (h : SwitchHierarchy) (p1 p2 : String)
    (hne : s1 ≠ s2) (h1 : alookup s1 h.parents = some p1)
    (h2 : alookup s2 h.parents = some p2) :
    (calculate_switch_distance s1 s2 h = 1 ↔ (p1 ≠ "" ∧ p1 = p2)) ∧
    (calculate_switch_distance s1 s2 h = 1 ∨ calculate_switch_distance s1 s2 h = 2) := by
  rw [calculate_switch_distance, if_neg hne, h1, h2]
  dsimp only
  constructor
  · by_cases hc : p1 ≠ "" ∧ p2 ≠ "" ∧ p1 = p2
    · rw [if_pos hc]
      exact ⟨fun _ => ⟨hc.1, hc.2.2⟩, fun _ => rfl⟩
    · rw [if_neg hc]
      constructor
      · intro h21
        exact absurd h21 (by omega)
      · intro hp
        exact absurd ⟨hp.1, hp.2 ▸ hp.1, hp.2⟩ hc
  · by_cases hc : p1 ≠ "" ∧ p2 ≠ "" ∧ p1 = p2
    · rw [if_pos hc]
      exact Or.inl rfl
    · rw [if_neg hc]
      exact Or.inr rfl

/-- Witness for C3's amended theorem at a concrete input. -/
theorem claim3_witness :
    (calculate_switch_distance "s1" "s2" (SwitchHierarchy.mk [("s1", "p1"), ("s2", "p1")] []) = 1
      ↔ (("p1" : String) ≠ "" ∧ ("p1" : String) = "p1")) ∧
    (calculate_switch_distance "s1" "s2" (SwitchHierarchy.mk [("s1", "p1"), ("s2", "p1")] []) = 1
      ∨ calculate_switch_distance "s1" "s2"
          (SwitchHierarchy.mk [("s1", "p1"), ("s2", "p1")] []) = 2) :=
  claim3_distance_whole_string "s1" "s2" (SwitchHierarchy.mk [("s1", "p1"), ("s2", "p1")] [])
    "p1" "p1" (by decide) (by decide) (by decide)

/-- Claim C4, counterexample: with the largest switch holding
`requested_a + requested_b = 4` nodes, workload A still contains the
other switch's node `"x"`: the fill loop draws from other switches
before touching the largest switch's reserve. -/
theorem claim4_counterexample :
    2 + 2 ≤ ((alookup "s1" [("s1", ["a", "b", "c", "d"]), ("s2", ["x"])]).getD []).length ∧
    "x" ∈ (compact_split_nodes_between_workloads [("s1", ["a", "b", "c", "d"]), ("s2", ["x"])]
      [] ⟨[], []⟩ 2 2).1 ∧
    "x" ∉ (alookup "s1" [("s1", ["a", "b", "c", "d"]), ("s2", ["x"])]).getD [] := by
  decide

/-- Claim C4, amended: on a multi-switch input whose selected largest
switch is usable, the largest switch's first sorted node is always in
workload A; and when the largest switch has at least
`requested_a + requested_b` nodes and `requested_a ≥ 1`, workload B is
drawn entirely from the largest switch — but workload A fills from the
other switches first, so other switches' nodes can appear in A. -/
theorem claim4_largest_switch (stn : List (Switch × List Node)) (n2s : List (Node × Switch))
    (hier : SwitchHierarchy) (wa wb : Nat) (ls : Switch) (cnt : Nat)
    (h1 : stn.length ≠ 1) (hF : findLargest stn = (some ls, cnt)) (hls : ls ≠ "")
    (hg : 1 ≤ ((alookup ls stn).getD []).length) :
    (groupOf stn ls).headI ∈ (compact_split_nodes_between_workloads stn n2s hier wa wb).1 ∧
    (1 ≤ wa → wa + wb ≤ ((alookup ls stn).getD []).length →
      ∀ x ∈ (compact_split_nodes_between_workloads stn n2s hier wa wb).2,
        x ∈ (alookup ls stn).getD []) := by
  rw [compact_split_eq_main stn n2s hier wa wb ls cnt h1 hF hls hg]
  constructor
  · exact compactMain_head_mem _ stn hier ls wa wb
  · intro hwa hlen
    have hlen' : wa + wb ≤ (groupOf stn ls).length := by
      rw [groupOf, sortNodes_length]
      exact hlen
    exact compactMain_b_from_largest _ stn hier ls wa wb hwa hlen'

/-- Witness for C4's amended theorem at a concrete input. -/
theorem claim4_witness :
    (groupOf [("s1", ["a", "b", "c"]), ("s2", ["x"])] "s1").headI ∈
      (compact_split_nodes_between_workloads [("s1", ["a", "b", "c"]), ("s2", ["x"])] []
        ⟨[], []⟩ 1 2).1 ∧
    (1 ≤ 1 → 1 + 2 ≤ ((alookup "s1" [("s1", ["a", "b", "c"]), ("s2", ["x"])]).getD []).length →
      ∀ x ∈ (compact_split_nodes_between_workloads [("s1", ["a", "b", "c"]), ("s2", ["x"])] []
        ⟨[], []⟩ 1 2).2,
        x ∈ (alookup "s1" [("s1", ["a", "b", "c"]), ("s2", ["x"])]).getD []) :=
  claim4_largest_switch [("s1", ["a", "b", "c"]), ("s2", ["x"])] [] ⟨[], []⟩ 1 2 "s1" 3
    (by decide) (by decide) (by decide) (by decide)

/-- Claim C5, counterexample: the single-switch case sends ALL leftover
nodes to workload B, with no bound by `requested_a + requested_b`: with
3 nodes and quotas `1 + 1`, the two outputs together hold 3 nodes. -/
theorem claim5_counterexample :
    (evenly_split_nodes_between_workloads [("s", ["c", "a", "b"])] 1 1).1.length +
      (evenly_split_nodes_between_workloads [("s", ["c", "a", "b"])] 1 1).2.length = 3 ∧
    ¬ ((evenly_split_nodes_between_workloads [("s", ["c", "a", "b"])] 1 1).1.length +
      (evenly_split_nodes_between_workloads [("s", ["c", "a", "b"])] 1 1).2.length ≤ 1 + 1) := by
  decide

/-- Claim C5, amended: on a single switch group both strategies return
the first `requested_a` lexicographically sorted nodes as A and ALL of
the remaining nodes as B (the total is not truncated to
`requested_a + requested_b`; an oversized B is rejected later by the
orchestrator's length check). -/
theorem claim5_single_switch (s : Switch) (nodes : List Node) (n2s : List (Node × Switch))
    (hier : SwitchHierarchy) (wa wb : Nat) :
    evenly_split_nodes_between_workloads [(s, nodes)] wa wb =
      ((sortNodes nodes).take wa, (sortNodes nodes).drop wa) ∧
    compact_split_nodes_between_workloads [(s, nodes)] n2s hier wa wb =
      ((sortNodes nodes).take wa, (sortNodes nodes).drop wa) := by
  have hlen : ([(s, nodes)] : List (Switch × List Node)).length = 1 := rfl
  have hsingle : handle_single_switch_case [(s, nodes)] wa =
      ((sortNodes nodes).take wa, (sortNodes nodes).drop wa) := by
    rw [handle_single_switch_case]
    simp
  constructor
  · rw [evenly_split_nodes_between_workloads, evenCore, if_pos hlen, hsingle]
  · rw [compact_split_nodes_between_workloads, compactCore, if_pos hlen, hsingle]

/-- Claim C6, counterexample: a node allocated twice appears twice in
its switch's group; duplicates are not dropped. -/
theorem claim6_counterexample :
    List.count "n1"
      ((alookup "s1" (group_nodes_by_switch ["n1", "n1"] [("n1", "s1")])).getD []) = 2 ∧
    ¬ List.count "n1"
      ((alookup "s1" (group_nodes_by_switch ["n1", "n1"] [("n1", "s1")])).getD []) ≤ 1 := by
  decide

/-- Claim C6, amended: the grouper preserves duplicates: for every
non-empty switch name `s`, the group of `s` is exactly the ordered
sublist of the allocated sequence of the nodes mapped to `s`, one entry
per occurrence. -/
theorem claim6_group_keeps_duplicates (allocated : List Node) (n2s : List (Node × Switch))
    (s : Switch) (hs : s ≠ "") :
    (alookup s (group_nodes_by_switch allocated n2s)).getD [] =
      allocated.filter (fun nd => alookup nd n2s = some s) := by
  rw [group_nodes_by_switch]
  simpa using group_fold_lookup n2s s hs allocated []

/-- Witness for C6's amended theorem at a concrete input. -/
theorem claim6_witness :
    (alookup "s1" (group_nodes_by_switch ["n1", "n1"] [("n1", "s1")])).getD [] =
      ["n1", "n1"].filter (fun nd => alookup nd [("n1", "s1")] = some "s1") :=
  claim6_group_keeps_duplicates ["n1", "n1"] [("n1", "s1")] "s1" (by decide)

/-- Claim C7, counterexample: the allocated node `"nx"` is absent from
the topology and is not placed by any step of the `even` strategy — it
does NOT land in workload B (nor in A): the strategies compute their
node pool from the switch groups, which exclude missing nodes. -/
theorem claim7_counterexample :
    "nx" ∉ (evenly_split_nodes_between_workloads
      (group_nodes_by_switch ["n1", "n2", "nx"] [("n1", "s1"), ("n2", "s2")]) 1 2).2 ∧
    "nx" ∉ (evenly_split_nodes_between_workloads
      (group_nodes_by_switch ["n1", "n2", "nx"] [("n1", "s1"), ("n2", "s2")]) 1 2).1 := by
  decide

/-- Claim C7, amended: an allocated node missing from the topology map
(no entry, or the falsy empty-string switch) is dropped by the grouper
and therefore appears in neither workload of either strategy — in
particular it never reaches B's unallocated-remainder step. -/
theorem claim7_missing_nodes_dropped (allocated : List Node) (n2s : List (Node × Switch))
    (hier : SwitchHierarchy) (wa wb : Nat) (nx : Node)
    (hmiss : alookup nx n2s = none ∨ alookup nx n2s = some "") :
    (nx ∉ (evenly_split_nodes_between_workloads
        (group_nodes_by_switch allocated n2s) wa wb).1 ∧
     nx ∉ (evenly_split_nodes_between_workloads
        (group_nodes_by_switch allocated n2s) wa wb).2) ∧
    (nx ∉ (compact_split_nodes_between_workloads
        (group_nodes_by_switch allocated n2s) n2s hier wa wb).1 ∧
     nx ∉ (compact_split_nodes_between_workloads
        (group_nodes_by_switch allocated n2s) n2s hier wa wb).2) := by
  have hnot : nx ∉ concatVals (group_nodes_by_switch allocated n2s) := by
    intro hmem
    obtain ⟨sw, hsw, hne⟩ := group_mem hmem
    rcases hmiss with h | h
    · rw [h] at hsw
      cases hsw
    · rw [h] at hsw
      cases hsw
      exact hne rfl
  refine ⟨⟨fun hmem => ?_, fun hmem => ?_⟩, fun hmem => ?_, fun hmem => ?_⟩
  · exact hnot ((even_subset _ wa wb).1 nx hmem)
  · exact hnot ((even_subset _ wa wb).2 nx hmem)
  · exact hnot ((compact_subset _ n2s hier wa wb).1 nx hmem)
  · exact hnot ((compact_subset _ n2s hier wa wb).2 nx hmem)

/-- Witness for C7's amended theorem at a concrete input. -/
theorem claim7_witness :
    ("nx" ∉ (evenly_split_nodes_between_workloads
        (group_nodes_by_switch ["n1", "n2", "nx"] [("n1", "s1"), ("n2", "s2")]) 1 2).1 ∧
     "nx" ∉ (evenly_split_nodes_between_workloads
        (group_nodes_by_switch ["n1", "n2", "nx"] [("n1", "s1"), ("n2", "s2")]) 1 2).2) ∧
    ("nx" ∉ (compact_split_nodes_between_workloads
        (group_nodes_by_switch ["n1", "n2", "nx"] [("n1", "s1"), ("n2", "s2")])
        [("n1", "s1"), ("n2", "s2")] ⟨[], []⟩ 1 2).1 ∧
     "nx" ∉ (compact_split_nodes_between_workloads
        (group_nodes_by_switch ["n1", "n2", "nx"] [("n1", "s1"), ("n2", "s2")])
        [("n1", "s1"), ("n2", "s2")] ⟨[], []⟩ 1 2).2) :=
  claim7_missing_nodes_dropped ["n1", "n2", "nx"] [("n1", "s1"), ("n2", "s2")] ⟨[], []⟩ 1 2
    "nx" (Or.inl (by decide))

/-- Claim C8: the switch distance is reflexive with value `0` and is
symmetric, over every hierarchy. -/
theorem claim8_distance_refl_symm :
    (∀ (s : Switch) (h : SwitchHierarchy), calculate_switch_distance s s h = 0) ∧
    (∀ (x y : Switch) (h : SwitchHierarchy),
      calculate_switch_distance x y h = calculate_switch_distance y x h) := by
  constructor
  · intro s h
    rw [calculate_switch_distance, if_pos rfl]
  · intro x y h
    by_cases hxy : x = y
    · subst hxy
      rfl
    · rw [calculate_switch_distance, calculate_switch_distance, if_neg hxy,
        if_neg (fun hh => hxy hh.symm)]
      cases h1 : alookup x h.parents with
      | none => cases h2 : alookup y h.parents <;> rfl
      | some p1 =>
        cases h2 : alookup y h.parents with
        | none => rfl
        | some p2 =>
          dsimp only
          by_cases hc : p1 ≠ "" ∧ p2 ≠ "" ∧ p1 = p2
          · rw [if_pos hc, if_pos ⟨hc.2.1, hc.1, hc.2.2.symm⟩]
          · rw [if_neg hc, if_neg (fun hh => hc ⟨hh.2.1, hh.1, hh.2.2.symm⟩)]

/-- Claim C9: both strategies are insensitive to the enumeration order
of the Python sets they use: replacing the set-difference enumeration
in the unallocated-remainder step by any permutation-preserving `pick`
leaves the output unchanged (all other collections the strategies
iterate are insertion-ordered dicts or sorted lists, so two runs on the
same input are identical). -/
theorem claim9_set_enum_invariant (pick : List Node → List Node)
    (hp : ∀ l, (pick l).Perm l) (stn : List (Switch × List Node))
    (n2s : List (Node × Switch)) (hier : SwitchHierarchy) (wa wb : Nat) :
    evenCore pick stn wa wb = evenly_split_nodes_between_workloads stn wa wb ∧
    compactCore pick stn n2s hier wa wb =
      compact_split_nodes_between_workloads stn n2s hier wa wb := by
  have hdiff : ∀ a p, sortedSetDiff pick a p = sortedSetDiff (fun l => l) a p :=
    fun a p => sortedSetDiff_pick hp a p
  constructor
  · rw [evenly_split_nodes_between_workloads]
    simp only [evenCore, hdiff]
  · rw [compact_split_nodes_between_workloads]
    simp only [compactCore, compactMain, hdiff]

/-- Witness for C9 at a concrete input with a reversing enumeration. -/
theorem claim9_witness :
    evenCore List.reverse [("s1", ["a"]), ("s2", ["b"])] 1 1 =
      evenly_split_nodes_between_workloads [("s1", ["a"]), ("s2", ["b"])] 1 1 ∧
    compactCore List.reverse [("s1", ["a"]), ("s2", ["b"])] [] ⟨[], []⟩ 1 1 =
      compact_split_nodes_between_workloads [("s1", ["a"]), ("s2", ["b"])] [] ⟨[], []⟩ 1 1 :=
  claim9_set_enum_invariant List.reverse (fun l => List.reverse_perm l)
    [("s1", ["a"]), ("s2", ["b"])] [] ⟨[], []⟩ 1 1

/-- Claim C10, counterexample: with `requested_a = 0` on two switch
groups, workload A is `["a", "x"]` — the largest switch's first node
PLUS all but the last of the nearest other switch's nodes (the Python
slice `[:-1]` with the need at `-1`) — not exactly the single first
node. -/
theorem claim10_counterexample :
    (compact_split_nodes_between_workloads [("s1", ["a", "b", "c"]), ("s2", ["x", "y"])] []
      ⟨[], []⟩ 0 1).1 = ["a", "x"] ∧
    ¬ (compact_split_nodes_between_workloads [("s1", ["a", "b", "c"]), ("s2", ["x", "y"])] []
      ⟨[], []⟩ 0 1).1 = ["a"] := by
  decide

/-- Claim C10, amended: with `requested_a = 0` on a multi-switch input
with a usable largest switch, workload A is the largest switch's first
sorted node followed by the Python slice `[:-1]` (all but the last
element) of the nearest remaining switch's sorted nodes; in particular
A is never empty, so a zero quota for A can never be met. -/
theorem claim10_zero_quota (stn : List (Switch × List Node)) (n2s : List (Node × Switch))
    (hier : SwitchHierarchy) (wb : Nat) (ls : Switch) (cnt : Nat) (r : Switch)
    (rs : List Switch)
    (h1 : stn.length ≠ 1) (hF : findLargest stn = (some ls, cnt)) (hls : ls ≠ "")
    (hg : 1 ≤ ((alookup ls stn).getD []).length)
    (hr : (rankedOthers stn hier ls).map Prod.fst = r :: rs) :
    (compact_split_nodes_between_workloads stn n2s hier 0 wb).1 =
      (groupOf stn ls).headI :: pyTake (groupOf stn r) (-1) ∧
    (compact_split_nodes_between_workloads stn n2s hier 0 wb).1.length ≠ 0 := by
  rw [compact_split_eq_main stn n2s hier 0 wb ls cnt h1 hF hls hg]
  constructor
  · exact compactMain_wa_zero _ stn hier ls wb r rs hr
  · rw [compactMain_wa_zero _ stn hier ls wb r rs hr]
    simp

/-- Witness for C10's amended theorem at a concrete input. -/
theorem claim10_witness :
    (compact_split_nodes_between_workloads [("s1", ["a", "b", "c"]), ("s2", ["x", "y"])] []
      ⟨[], []⟩ 0 1).1 =
      (groupOf [("s1", ["a", "b", "c"]), ("s2", ["x", "y"])] "s1").headI ::
        pyTake (groupOf [("s1", ["a", "b", "c"]), ("s2", ["x", "y"])] "s2") (-1) ∧
    (compact_split_nodes_between_workloads [("s1", ["a", "b", "c"]), ("s2", ["x", "y"])] []
      ⟨[], []⟩ 0 1).1.length ≠ 0 :=
  claim10_zero_quota [("s1", ["a", "b", "c"]), ("s2", ["x", "y"])] [] ⟨[], []⟩ 1 "s1" 3
    "s2" [] (by decide) (by decide) (by decide) (by decide) (by decide)

end SplitNodes
